import Mathlib

/-!
Verification of the chess engine (GameState, move generation, check
detection, and negamax search).  The Python sources are embedded
shallowly: boards are total functions from integer coordinates to
pieces, the mutable `GameState` object becomes a structure threaded
explicitly through each operation, and every method is translated into
a pure function mirroring the source line by line (including its use
of wrap-free guarded indexing, list mutation order, and early exits).
Lists that the source appends to at the tail and pops from the tail
(`move_log`, `castle_rights_log`, `enpassant_possible_log`) are stored
most-recent-first, so a Python append is a cons and a Python pop is a
tail.
-/

set_option maxHeartbeats 1000000
set_option maxRecDepth 100000

/-- Piece colors, the `"w"`/`"b"` tags of the source. -/
inductive PColor where
  | w
  | b
deriving DecidableEq, Repr

/-- Piece kinds, the `"p" "R" "N" "B" "Q" "K"` tags of the source. -/
inductive PKind where
  | p
  | R
  | N
  | B
  | Q
  | K
deriving DecidableEq, Repr

/-- A board square content: either the empty marker `"--"` or a
two-character color+kind string such as `"wK"`. -/
inductive Piece where
  | empty
  | pc (c : PColor) (k : PKind)
deriving DecidableEq, Repr

/-- First character of a square string: `some` color for a piece,
`none` for the `"--"` marker (whose first character matches no color). -/
def Piece.color : Piece → Option PColor
  | .empty => none
  | .pc c _ => some c

/-- Second character of a square string: `some` kind for a piece,
`none` for the `"--"` marker (whose second character matches no kind). -/
def Piece.kind : Piece → Option PKind
  | .empty => none
  | .pc _ k => some k

/-- The board, an 8x8 grid indexed `board[row][col]`; embedded as a
total function so that in-place writes become functional overrides.
All reads performed by the source are guarded to 0..7 except the pawn
forward reads, which the source performs directly. -/
def Board : Type := Int → Int → Piece

/-- `board[r][c]`. -/
def bget (b : Board) (r c : Int) : Piece := b r c

/-- `board[r][c] = v`, as a functional override. -/
def bset (b : Board) (r c : Int) (v : Piece) : Board :=
  fun r' c' => if r' = r ∧ c' = c then v else b r' c'

theorem bget_bset (b : Board) (r c r' c' : Int) (v : Piece) :
    bget (bset b r c v) r' c' = if r' = r ∧ c' = c then v else bget b r' c' := rfl

/-- Build a board from a row-major list of rows (used for concrete
test positions). -/
def boardOfRows (rows : List (List Piece)) : Board :=
  fun r c => ((rows.getD r.toNat []).getD c.toNat Piece.empty)

/-- `CastleRights(wks, bks, wqs, bqs)` from `move.py`. -/
structure CastleRights where
  wks : Bool
  bks : Bool
  wqs : Bool
  bqs : Bool
deriving DecidableEq, Repr

/-- An entry of the `pins`/`checks` lists produced by
`checkForPinsAndChecks`: `(row, col, direction_row, direction_col)`. -/
structure PinEntry where
  row : Int
  col : Int
  dRow : Int
  dCol : Int
deriving DecidableEq, Repr

/-- The `Move` object of `move.py`: coordinates, the pieces read off
the construction-time board, and the three special-move flags. -/
structure Move where
  start_row : Int
  start_col : Int
  end_row : Int
  end_col : Int
  piece_moved : Piece
  piece_captured : Piece
  is_pawn_promotion : Bool
  is_enpassant_move : Bool
  is_castle_move : Bool
deriving DecidableEq, Repr

/-- `moveID = start_row*1000 + start_col*100 + end_row*10 + end_col`;
`Move.__eq__` compares only this key. -/
def Move.moveID (m : Move) : Int :=
  m.start_row * 1000 + m.start_col * 100 + m.end_row * 10 + m.end_col

/-- `Move.__init__`: reads the moved and captured pieces from the
board, computes the promotion flag, and for en passant overrides the
captured piece with the enemy pawn. -/
def mkMove (sr sc er ec : Int) (b : Board) (isEp : Bool) (isCastle : Bool) : Move :=
  let pm := bget b sr sc
  let cap0 := bget b er ec
  let promo := decide ((pm = Piece.pc .w .p ∧ er = 0) ∨ (pm = Piece.pc .b .p ∧ er = 7))
  let cap := if isEp then (if pm = Piece.pc .b .p then Piece.pc .w .p else Piece.pc .b .p) else cap0
  ⟨sr, sc, er, ec, pm, cap, promo, isEp, isCastle⟩

/-- The `GameState` object of `ChessEngine.py`.  The three log lists
are stored most-recent-first (append = cons, pop = tail). -/
structure GameState where
  board : Board
  white_to_move : Bool
  move_log : List Move
  white_king_location : Int × Int
  black_king_location : Int × Int
  checkmate : Bool
  stalemate : Bool
  in_check : Bool
  pins : List PinEntry
  checks : List PinEntry
  enpassant_possible : Option (Int × Int)
  enpassant_possible_log : List (Option (Int × Int))
  current_castling_rights : CastleRights
  castle_rights_log : List CastleRights

/-- `GameState.undoMove`: with empty history the source returns at
once (a silent no-op); otherwise it pops the last move, restores the
moved and captured pieces, the side to move, king locations, the en
passant capture square, pops the en-passant and castling-rights logs,
reverses a castling rook relocation, and clears both terminal flags. -/
def undoMove (s : GameState) : GameState :=
  match s.move_log with
  | [] => s
  | m :: rest =>
    let b1 := bset s.board m.start_row m.start_col m.piece_moved
    let b2 := bset b1 m.end_row m.end_col m.piece_captured
    let wkl := if m.piece_moved = Piece.pc .w .K then (m.start_row, m.start_col) else s.white_king_location
    let bkl := if m.piece_moved = Piece.pc .b .K then (m.start_row, m.start_col) else s.black_king_location
    let b4 :=
      if m.is_enpassant_move then
        let b3 := bset b2 m.end_row m.end_col Piece.empty
        bset b3 m.start_row m.end_col m.piece_captured
      else b2
    let epLog' := s.enpassant_possible_log.tail
    let ep' := epLog'.headD none
    let crLog' := s.castle_rights_log.tail
    let cr' := crLog'.headD ⟨true, true, true, true⟩
    let b6 :=
      if m.is_castle_move then
        (if m.end_col - m.start_col = 2 then
          let b5 := bset b4 m.end_row (m.end_col + 1) (bget b4 m.end_row (m.end_col - 1))
          bset b5 m.end_row (m.end_col - 1) Piece.empty
        else
          let b5 := bset b4 m.end_row (m.end_col - 2) (bget b4 m.end_row (m.end_col + 1))
          bset b5 m.end_row (m.end_col + 1) Piece.empty)
      else b4
    { s with
      board := b6
      white_to_move := !s.white_to_move
      move_log := rest
      white_king_location := wkl
      black_king_location := bkl
      enpassant_possible := ep'
      enpassant_possible_log := epLog'
      current_castling_rights := cr'
      castle_rights_log := crLog'
      checkmate := false
      stalemate := false }

/-- The 8 ray directions of `checkForPinsAndChecks`, in source order:
4 orthogonal then 4 diagonal. -/
def dirAt (j : Nat) : Int × Int :=
  match j with
  | 0 => (-1, 0)
  | 1 => (0, -1)
  | 2 => (1, 0)
  | 3 => (0, 1)
  | 4 => (-1, -1)
  | 5 => (-1, 1)
  | 6 => (1, -1)
  | _ => (1, 1)

/-- `_isValidAttackDirection(direction_index, piece_type, distance)`
from `check_detection.py`, translated clause by clause (each Python
`return` becomes an `if`-branch).  Note that the pawn clause returns
`direction_index in (4, 5, 6, 7)` for both pawn colors. -/
def isValidAttackDirection (j : Nat) (k : PKind) (dist : Nat) : Bool :=
  let is_orthogonal := decide (j ≤ 3)
  let is_diagonal := decide (4 ≤ j ∧ j ≤ 7)
  if is_orthogonal ∧ k = .R then true
  else if is_diagonal ∧ k = .B then true
  else if k = .Q then true
  else if dist = 1 ∧ k = .p then decide (j = 4 ∨ j = 5 ∨ j = 6 ∨ j = 7)
  else if dist = 1 ∧ k = .K then true
  else false

/-- One ray of `checkForPinsAndChecks`: the `for i in range(1, 8)`
loop for direction index `j`.  Returns at most one pin entry and at
most one check entry for this ray.  An allied non-king piece becomes
the pin candidate (a second one ends the ray); the first enemy piece
is tested with the attack rule; empty squares, and allied kings (which
match neither branch of the source), let the scan continue. -/
def scanRay (b : Board) (sr sc : Int) (ally enemy : PColor) (j : Nat) (dr dc : Int) :
    Nat → Nat → Option PinEntry → Option PinEntry × Option PinEntry
  | 0, _, _ => (none, none)
  | fuel + 1, i, pp =>
    let er := sr + dr * (i : Int)
    let ec := sc + dc * (i : Int)
    if 0 ≤ er ∧ er ≤ 7 ∧ 0 ≤ ec ∧ ec ≤ 7 then
      match bget b er ec with
      | .pc c k =>
        if c = ally ∧ k ≠ .K then
          (if pp = none then
            scanRay b sr sc ally enemy j dr dc fuel (i + 1) (some ⟨er, ec, dr, dc⟩)
          else (none, none))
        else if c = enemy then
          (if isValidAttackDirection j k i then
            (if pp = none then (none, some ⟨er, ec, dr, dc⟩) else (pp, none))
          else (none, none))
        else scanRay b sr sc ally enemy j dr dc fuel (i + 1) pp
      | .empty => scanRay b sr sc ally enemy j dr dc fuel (i + 1) pp
    else (none, none)

/-- The knight offsets probed by `_checkForKnightChecks`, in source
order. -/
def knightOffsets : List (Int × Int) :=
  [(-2, -1), (-2, 1), (-1, 2), (1, 2), (2, -1), (2, 1), (-1, -2), (1, -2)]

/-- `_checkForKnightChecks`: appends any attacking enemy knight to the
shared `checks` list.  The source also assigns `in_check = True`
inside this helper, but that assignment rebinds the helper's local
parameter and never reaches `checkForPinsAndChecks`, so only the
`checks` list is affected; the translation therefore returns the
updated list alone. -/
def checkForKnightChecks (b : Board) (sr sc : Int) (enemy : PColor)
    (checks : List PinEntry) : List PinEntry :=
  knightOffsets.foldl
    (fun cs mv =>
      let er := sr + mv.1
      let ec := sc + mv.2
      if 0 ≤ er ∧ er ≤ 7 ∧ 0 ≤ ec ∧ ec ≤ 7 then
        let ep := bget b er ec
        if ep.color = some enemy ∧ ep.kind = some .N then cs ++ [⟨er, ec, mv.1, mv.2⟩]
        else cs
      else cs)
    checks

/-- `checkForPinsAndChecks(game_state)` from `check_detection.py`:
casts the 8 rays from the side-to-move's king, then probes the knight
squares.  `in_check` reflects only the ray scans, because the knight
helper's local assignment does not escape (see
`checkForKnightChecks`). -/
def checkForPinsAndChecks (s : GameState) : Bool × List PinEntry × List PinEntry :=
  let p := if s.white_to_move
    then (PColor.b, PColor.w, s.white_king_location.1, s.white_king_location.2)
    else (PColor.w, PColor.b, s.black_king_location.1, s.black_king_location.2)
  let enemy := p.1
  let ally := p.2.1
  let start_row := p.2.2.1
  let start_col := p.2.2.2
  let acc := (List.range 8).foldl
    (fun acc j =>
      let d := dirAt j
      let r := scanRay s.board start_row start_col ally enemy j d.1 d.2 7 1 none
      (acc.1 || r.2.isSome, acc.2.1 ++ r.1.toList, acc.2.2 ++ r.2.toList))
    (false, ([] : List PinEntry), ([] : List PinEntry))
  let checks2 := checkForKnightChecks s.board start_row start_col enemy acc.2.2
  (acc.1, acc.2.1, checks2)

/-- `GameState.checkForPinsAndChecks`: the wrapper that stores the
detector's results in the `in_check`, `pins` and `checks` fields. -/
def gsCheckForPinsAndChecks (s : GameState) :
    (Bool × List PinEntry × List PinEntry) × GameState :=
  let r := checkForPinsAndChecks s
  (r, { s with in_check := r.1, pins := r.2.1, checks := r.2.2 })

/-- The backwards pin scan shared by the generators: Python iterates
`range(len(pins)-1, -1, -1)`, compares `pins[i][0:2]` with the piece's
square, and on the first (i.e. highest-index) match removes the entry
and breaks.  Applied to the reversed list this is a first-match
find-and-remove; the remainder keeps its order. -/
def pinScanRev (row col : Int) : List PinEntry → Option PinEntry × List PinEntry
  | [] => (none, [])
  | e :: rest =>
    if e.row = row ∧ e.col = col then (some e, rest)
    else
      let r := pinScanRev row col rest
      (r.1, e :: r.2)

/-- The result of the backwards scan on the original list: the found
entry (if any) and the list with that single entry removed. -/
def pinScan (pins : List PinEntry) (row col : Int) : Option PinEntry × List PinEntry :=
  let r := pinScanRev row col pins.reverse
  (r.1, r.2.reverse)

/-- `range(a, b)` over integers: `a, a+1, ..., b-1`. -/
def rangeAsc (a b : Int) : List Int :=
  (List.range (b - a).toNat).map (fun k => a + (k : Int))

/-- `range(a, b, -1)` over integers: `a, a-1, ..., b+1`. -/
def rangeDesc (a b : Int) : List Int :=
  (List.range (a - b).toNat).map (fun k => a - (k : Int))

/-- `_addEnPassantIfValid` from `piece_moves.py`: the horizontal
discovered-check scan.  When the king shares the pawns' row, the
squares strictly inside `inside_range` set `blocking_piece` if
occupied, and the squares of `outside_range` set `attacking_piece` for
an enemy rook/queen and `blocking_piece` for any other occupant; the
move is appended unless an attacker was found with no blocker.  The
ranges are exactly the source's (written for a capture toward column
`col - 1`; for the other capture direction the captured pawn's own
square falls inside one of the scans). -/
def addEnPassantIfValid (s : GameState) (row col move_amount col_offset king_row king_col : Int)
    (moves : List Move) (enemy_color : PColor) : List Move :=
  let flags :=
    if king_row = row then
      let ranges :=
        if king_col < col then (rangeAsc (king_col + 1) (col - 1), rangeAsc (col + 1) 8)
        else (rangeDesc (king_col - 1) col, rangeDesc (col - 2) (-1))
      let inside_range := ranges.1
      let outside_range := ranges.2
      let blocking1 := inside_range.any (fun i => decide (bget s.board row i ≠ Piece.empty))
      let attacking := outside_range.any (fun i =>
        let square := bget s.board row i
        decide (square.color = some enemy_color ∧ (square.kind = some .R ∨ square.kind = some .Q)))
      let blocking2 := outside_range.any (fun i =>
        let square := bget s.board row i
        decide (¬(square.color = some enemy_color ∧ (square.kind = some .R ∨ square.kind = some .Q)) ∧
          square ≠ Piece.empty))
      (attacking, blocking1 || blocking2)
    else (false, false)
  if ¬flags.1 ∨ flags.2 then
    moves ++ [mkMove row col (row + move_amount) (col + col_offset) s.board true false]
  else moves

/-- `getPawnMoves` from `piece_moves.py`: pin lookup (with removal),
single and double advances, diagonal captures, and the two en-passant
checks.  Only the `pins` field of the state changes. -/
def getPawnMoves (s : GameState) (row col : Int) (moves : List Move) :
    List Move × GameState :=
  let scan := pinScan s.pins row col
  let piece_pinned := scan.1.isSome
  let pin_direction : Int × Int := match scan.1 with
    | some e => (e.dRow, e.dCol)
    | none => (0, 0)
  let pins' := scan.2
  let q := if s.white_to_move
    then (-1, 6, PColor.b, s.white_king_location.1, s.white_king_location.2)
    else (1, 1, PColor.w, s.black_king_location.1, s.black_king_location.2)
  let move_amount : Int := q.1
  let start_row : Int := q.2.1
  let enemy_color := q.2.2.1
  let king_row := q.2.2.2.1
  let king_col := q.2.2.2.2
  let ms1 :=
    if bget s.board (row + move_amount) col = Piece.empty then
      (if ¬piece_pinned ∨ pin_direction = (move_amount, 0) then
        let a := moves ++ [mkMove row col (row + move_amount) col s.board false false]
        if row = start_row ∧ bget s.board (row + 2 * move_amount) col = Piece.empty then
          a ++ [mkMove row col (row + 2 * move_amount) col s.board false false]
        else a
      else moves)
    else moves
  let ms2 :=
    if col - 1 ≥ 0 then
      (if ¬piece_pinned ∨ pin_direction = (move_amount, -1) then
        let a := if (bget s.board (row + move_amount) (col - 1)).color = some enemy_color then
            ms1 ++ [mkMove row col (row + move_amount) (col - 1) s.board false false]
          else ms1
        if s.enpassant_possible = some (row + move_amount, col - 1) then
          addEnPassantIfValid s row col move_amount (-1) king_row king_col a enemy_color
        else a
      else ms1)
    else ms1
  let ms3 :=
    if col + 1 ≤ 7 then
      (if ¬piece_pinned ∨ pin_direction = (move_amount, 1) then
        let a := if (bget s.board (row + move_amount) (col + 1)).color = some enemy_color then
            ms2 ++ [mkMove row col (row + move_amount) (col + 1) s.board false false]
          else ms2
        if s.enpassant_possible = some (row + move_amount, col + 1) then
          addEnPassantIfValid s row col move_amount 1 king_row king_col a enemy_color
        else a
      else ms2)
    else ms2
  (ms3, { s with pins := pins' })

/-- The inner `for i in range(1, 8)` scan of the sliding generators:
appends empty-square destinations and one capture; an allied piece
stops the scan; when the pin test fails the body is skipped but the
scan continues (as in the source, which has no `else` break). -/
def slideScan (b : Board) (row col : Int) (enemy_color : PColor)
    (piece_pinned : Bool) (pin_direction : Int × Int) (d : Int × Int) :
    Nat → Nat → List Move → List Move
  | 0, _, moves => moves
  | fuel + 1, i, moves =>
    let end_row := row + d.1 * (i : Int)
    let end_col := col + d.2 * (i : Int)
    if 0 ≤ end_row ∧ end_row ≤ 7 ∧ 0 ≤ end_col ∧ end_col ≤ 7 then
      if ¬piece_pinned ∨ pin_direction = d ∨ pin_direction = (-d.1, -d.2) then
        let end_piece := bget b end_row end_col
        if end_piece = Piece.empty then
          slideScan b row col enemy_color piece_pinned pin_direction d fuel (i + 1)
            (moves ++ [mkMove row col end_row end_col b false false])
        else if end_piece.color = some enemy_color then
          moves ++ [mkMove row col end_row end_col b false false]
        else moves
      else slideScan b row col enemy_color piece_pinned pin_direction d fuel (i + 1) moves
    else moves

/-- `getRookMoves`: pin lookup (removal skipped for a queen, so the
bishop phase of `getQueenMoves` can see the entry), then the four
orthogonal scans. -/
def getRookMoves (s : GameState) (row col : Int) (moves : List Move) :
    List Move × GameState :=
  let scan := pinScan s.pins row col
  let piece_pinned := scan.1.isSome
  let pin_direction : Int × Int := match scan.1 with
    | some e => (e.dRow, e.dCol)
    | none => (0, 0)
  let pins' := if scan.1.isSome ∧ (bget s.board row col).kind ≠ some .Q then scan.2 else s.pins
  let enemy_color := if s.white_to_move then PColor.b else PColor.w
  let ms := [((-1 : Int), (0 : Int)), (0, -1), (1, 0), (0, 1)].foldl
    (fun acc d => slideScan s.board row col enemy_color piece_pinned pin_direction d 7 1 acc)
    moves
  (ms, { s with pins := pins' })

/-- `getKnightMoves`: pin lookup (with removal); a pinned knight
generates nothing, otherwise the 8 L-shaped destinations not occupied
by an ally. -/
def getKnightMoves (s : GameState) (row col : Int) (moves : List Move) :
    List Move × GameState :=
  let scan := pinScan s.pins row col
  let piece_pinned := scan.1.isSome
  let pins' := scan.2
  let ally_color := if s.white_to_move then PColor.w else PColor.b
  let ms := knightOffsets.foldl
    (fun acc mv =>
      let end_row := row + mv.1
      let end_col := col + mv.2
      if 0 ≤ end_row ∧ end_row ≤ 7 ∧ 0 ≤ end_col ∧ end_col ≤ 7 then
        if ¬piece_pinned then
          (if (bget s.board end_row end_col).color ≠ some ally_color then
            acc ++ [mkMove row col end_row end_col s.board false false]
          else acc)
        else acc
      else acc)
    moves
  (ms, { s with pins := pins' })

/-- `getBishopMoves`: pin lookup (with unconditional removal), then
the four diagonal scans. -/
def getBishopMoves (s : GameState) (row col : Int) (moves : List Move) :
    List Move × GameState :=
  let scan := pinScan s.pins row col
  let piece_pinned := scan.1.isSome
  let pin_direction : Int × Int := match scan.1 with
    | some e => (e.dRow, e.dCol)
    | none => (0, 0)
  let pins' := scan.2
  let enemy_color := if s.white_to_move then PColor.b else PColor.w
  let ms := [((-1 : Int), (-1 : Int)), (-1, 1), (1, 1), (1, -1)].foldl
    (fun acc d => slideScan s.board row col enemy_color piece_pinned pin_direction d 7 1 acc)
    moves
  (ms, { s with pins := pins' })

/-- `getQueenMoves`: the rook scans followed by the bishop scans. -/
def getQueenMoves (s : GameState) (row col : Int) (moves : List Move) :
    List Move × GameState :=
  let r := getRookMoves s row col moves
  getBishopMoves r.2 row col r.1

/-- The 8 king offsets, the zip of the source's `row_moves` and
`col_moves` tuples. -/
def kingOffsets : List (Int × Int) :=
  [(-1, -1), (-1, 0), (-1, 1), (0, -1), (0, 1), (1, -1), (1, 0), (1, 1)]

/-- `getKingMoves` from `piece_moves.py`: for each adjacent square not
holding an ally, temporarily relocate the king's location field, rerun
the detector (whose results are stored into the state by the wrapper),
keep the destination if the detector reports no check, and restore the
king's location field. -/
def getKingMoves (s : GameState) (row col : Int) (moves : List Move) :
    List Move × GameState :=
  let ally_color := if s.white_to_move then PColor.w else PColor.b
  kingOffsets.foldl
    (fun acc mv =>
      let st := acc.2
      let end_row := row + mv.1
      let end_col := col + mv.2
      if 0 ≤ end_row ∧ end_row ≤ 7 ∧ 0 ≤ end_col ∧ end_col ≤ 7 then
        if (bget st.board end_row end_col).color ≠ some ally_color then
          let st1 := if ally_color = .w then { st with white_king_location := (end_row, end_col) }
            else { st with black_king_location := (end_row, end_col) }
          let r := gsCheckForPinsAndChecks st1
          let ms' := if r.1.1 = false then
              acc.1 ++ [mkMove row col end_row end_col st.board false false]
            else acc.1
          let st3 := if ally_color = .w then { r.2 with white_king_location := (row, col) }
            else { r.2 with black_king_location := (row, col) }
          (ms', st3)
        else acc
      else acc)
    (moves, s)

/-- `GameState.getAllPossibleMoves`: scans the 64 squares in row-major
order and dispatches each piece of the side to move to its movement
function, threading the accumulated move list and the (mutated) state. -/
def getAllPossibleMoves (s : GameState) : List Move × GameState :=
  (List.range 8).foldl
    (fun accRow (r : Nat) =>
      (List.range 8).foldl
        (fun acc (c : Nat) =>
          let st := acc.2
          let row : Int := (r : Int)
          let col : Int := (c : Int)
          let here := bget st.board row col
          if (here.color = some .w ∧ st.white_to_move = true) ∨
             (here.color = some .b ∧ st.white_to_move = false) then
            match here.kind with
            | some .p => getPawnMoves st row col acc.1
            | some .R => getRookMoves st row col acc.1
            | some .N => getKnightMoves st row col acc.1
            | some .B => getBishopMoves st row col acc.1
            | some .Q => getQueenMoves st row col acc.1
            | some .K => getKingMoves st row col acc.1
            | none => acc
          else acc)
        accRow)
    ([], s)

/-- `GameState.squareUnderAttack`: flips the side to move, generates
all of the opponent's moves, flips back, and tests whether any move
lands on the square.  The generation mutates the transient fields of
the state, which the translation threads through. -/
def squareUnderAttack (s : GameState) (row col : Int) : Bool × GameState :=
  let s1 := { s with white_to_move := !s.white_to_move }
  let r := getAllPossibleMoves s1
  let s3 := { r.2 with white_to_move := !r.2.white_to_move }
  (r.1.any (fun m => decide (m.end_row = row ∧ m.end_col = col)), s3)

/-- `GameState.inCheck`: whether the current player's king square is
under attack. -/
def inCheck (s : GameState) : Bool × GameState :=
  if s.white_to_move then
    squareUnderAttack s s.white_king_location.1 s.white_king_location.2
  else
    squareUnderAttack s s.black_king_location.1 s.black_king_location.2

/-- `GameState._getKingsideCastleMoves`: both transit squares must be
empty; the attack probes short-circuit exactly as the source's
`not A and not B`. -/
def getKingsideCastleMoves (s : GameState) (row col : Int) (moves : List Move) :
    List Move × GameState :=
  if bget s.board row (col + 1) = Piece.empty ∧ bget s.board row (col + 2) = Piece.empty then
    let r1 := squareUnderAttack s row (col + 1)
    if r1.1 then (moves, r1.2)
    else
      let r2 := squareUnderAttack r1.2 row (col + 2)
      if r2.1 then (moves, r2.2)
      else (moves ++ [mkMove row col row (col + 2) r2.2.board false true], r2.2)
  else (moves, s)

/-- `GameState._getQueensideCastleMoves`: three empty squares, two
attack probes. -/
def getQueensideCastleMoves (s : GameState) (row col : Int) (moves : List Move) :
    List Move × GameState :=
  if bget s.board row (col - 1) = Piece.empty ∧ bget s.board row (col - 2) = Piece.empty ∧
     bget s.board row (col - 3) = Piece.empty then
    let r1 := squareUnderAttack s row (col - 1)
    if r1.1 then (moves, r1.2)
    else
      let r2 := squareUnderAttack r1.2 row (col - 2)
      if r2.1 then (moves, r2.2)
      else (moves ++ [mkMove row col row (col - 2) r2.2.board false true], r2.2)
  else (moves, s)

/-- `GameState.getCastleMoves`: no castling out of check; each wing is
generated when the corresponding rights flag of the side to move is
set. -/
def getCastleMoves (s : GameState) (row col : Int) (moves : List Move) :
    List Move × GameState :=
  let r0 := squareUnderAttack s row col
  if r0.1 then (moves, r0.2)
  else
    let s1 := r0.2
    let r1 :=
      if (s1.white_to_move ∧ s1.current_castling_rights.wks) ∨
         (¬s1.white_to_move ∧ s1.current_castling_rights.bks) then
        getKingsideCastleMoves s1 row col moves
      else (moves, s1)
    if (r1.2.white_to_move ∧ r1.2.current_castling_rights.wqs) ∨
       (¬r1.2.white_to_move ∧ r1.2.current_castling_rights.bqs) then
      getQueensideCastleMoves r1.2 row col r1.1
    else r1

/-- The `valid_squares` loop of `getValidMoves`: walk from the king in
the check's recorded direction, collecting squares up to and including
the (claimed) checking square. -/
def buildValidSquares (king_row king_col dr dc cr cc : Int) :
    Nat → Nat → List (Int × Int) → List (Int × Int)
  | 0, _, vs => vs
  | fuel + 1, i, vs =>
    let sq := (king_row + dr * (i : Int), king_col + dc * (i : Int))
    let vs' := vs ++ [sq]
    if sq = (cr, cc) then vs'
    else buildValidSquares king_row king_col dr dc cr cc fuel (i + 1) vs'

/-- `list.remove(x)` of Python: drops the first element comparing
equal to `x`, where `Move.__eq__` compares `moveID`s. -/
def removeFirstEq : List Move → Move → List Move
  | [], _ => []
  | x :: rest, m => if x.moveID = m.moveID then rest else x :: removeFirstEq rest m

/-- The removal loop of `getValidMoves`: `for i in range(len(moves)-1,
-1, -1)`, removing (by Python `remove`, i.e. first `moveID` match) the
non-king moves whose destination is outside `valid_squares`. -/
def pruneNonBlockingMoves (valid_squares : List (Int × Int)) :
    Nat → List Move → List Move
  | 0, ms => ms
  | i + 1, ms =>
    let ms' :=
      match ms.get? i with
      | some m =>
        if m.piece_moved.kind ≠ some .K ∧ (m.end_row, m.end_col) ∉ valid_squares then
          removeFirstEq ms m
        else ms
      | none => ms
    pruneNonBlockingMoves valid_squares i ms'

/-- `GameState.getValidMoves` up to (but not including) the
terminal-flag update and the castling-rights restore: runs the
detector, reads the king square, and branches on check status.  The
source reads `self.checks[0]` only after `getAllPossibleMoves` has
run, so the entry is read from the post-generation state (whose
`checks` field the king-move safety probes may have overwritten). -/
def gvmPreFlags (s : GameState) : List Move × GameState :=
  let w := gsCheckForPinsAndChecks s
  let s1 := w.2
  let kr := if s1.white_to_move then s1.white_king_location.1 else s1.black_king_location.1
  let kc := if s1.white_to_move then s1.white_king_location.2 else s1.black_king_location.2
  if s1.in_check then
    if s1.checks.length = 1 then
      let g := getAllPossibleMoves s1
      let sA := g.2
      let check := sA.checks.headD ⟨0, 0, 0, 0⟩
      let piece_checking := bget sA.board check.row check.col
      let valid_squares :=
        if piece_checking.kind = some .N then [(check.row, check.col)]
        else buildValidSquares kr kc check.dRow check.dCol check.row check.col 7 1 []
      (pruneNonBlockingMoves valid_squares g.1.length g.1, sA)
    else
      getKingMoves s1 kr kc []
  else
    let g := getAllPossibleMoves s1
    if g.2.white_to_move then
      getCastleMoves g.2 g.2.white_king_location.1 g.2.white_king_location.2 g.1
    else
      getCastleMoves g.2 g.2.black_king_location.1 g.2.black_king_location.2 g.1

/-- `GameState.getValidMoves`: the legal move filter.  After the
branch of `gvmPreFlags`, an empty list sets `checkmate` or
`stalemate` according to `inCheck` (leaving the other flag as it
was), a non-empty list clears both, and the castling rights are
restored from the snapshot taken at entry. -/
def getValidMoves (s : GameState) : List Move × GameState :=
  let temp_castle_rights : CastleRights :=
    ⟨s.current_castling_rights.wks, s.current_castling_rights.bks,
     s.current_castling_rights.wqs, s.current_castling_rights.bqs⟩
  let g := gvmPreFlags s
  let s2 := g.2
  let s3 :=
    if g.1.isEmpty then
      let r := inCheck s2
      if r.1 then { r.2 with checkmate := true } else { r.2 with stalemate := true }
    else { s2 with checkmate := false, stalemate := false }
  (g.1, { s3 with current_castling_rights := temp_castle_rights })

/-- A fresh `GameState` around a given board position, with empty
history and the given en-passant target and castling rights (the
shape `__init__` produces before any move, up to position). -/
def mkTestState (b : Board) (wtm : Bool) (wk bk : Int × Int)
    (ep : Option (Int × Int)) (cr : CastleRights) : GameState :=
  { board := b, white_to_move := wtm, move_log := [],
    white_king_location := wk, black_king_location := bk,
    checkmate := false, stalemate := false, in_check := false,
    pins := [], checks := [],
    enpassant_possible := ep, enpassant_possible_log := [ep],
    current_castling_rights := cr, castle_rights_log := [cr] }

/-- White king e1 area (7,4), black knight on (5,3) giving check,
black king far away; white to move.  A single knight check and
nothing else. -/
def knightCheckBoard : Board := fun r c =>
  if r = 7 ∧ c = 4 then .pc .w .K
  else if r = 5 ∧ c = 3 then .pc .b .N
  else if r = 3 ∧ c = 0 then .pc .w .R
  else if r = 0 ∧ c = 7 then .pc .b .K
  else .empty

def knightCheckState : GameState :=
  mkTestState knightCheckBoard true (7, 4) (0, 7) none ⟨false, false, false, false⟩

/-- White king on (4,4), black pawn on (5,5): the pawn sits on the
down-right diagonal from the king and attacks (6,4) and (6,6), not
the king. -/
def pawnDiagBoard : Board := fun r c =>
  if r = 4 ∧ c = 4 then .pc .w .K
  else if r = 5 ∧ c = 5 then .pc .b .p
  else if r = 0 ∧ c = 0 then .pc .b .K
  else .empty

def pawnDiagState : GameState :=
  mkTestState pawnDiagBoard true (4, 4) (0, 0) none ⟨false, false, false, false⟩

/-- White king (3,0) and pawn (3,4) on the same rank as a black pawn
(3,5) that has just double-advanced (en-passant target (2,5)) and a
black rook (3,7); capturing en passant to the right removes both
pawns and exposes the king to the rook along the rank. -/
def epDiscoveryBoard : Board := fun r c =>
  if r = 3 ∧ c = 0 then .pc .w .K
  else if r = 3 ∧ c = 4 then .pc .w .p
  else if r = 3 ∧ c = 5 then .pc .b .p
  else if r = 3 ∧ c = 7 then .pc .b .R
  else if r = 0 ∧ c = 0 then .pc .b .K
  else .empty

def epDiscoveryState : GameState :=
  mkTestState epDiscoveryBoard true (3, 0) (0, 0) (some (2, 5)) ⟨false, false, false, false⟩

/-- A minimal two-king position with empty move history. -/
def kingsOnlyBoard : Board := fun r c =>
  if r = 7 ∧ c = 4 then .pc .w .K
  else if r = 0 ∧ c = 4 then .pc .b .K
  else .empty

def kingsOnlyState : GameState :=
  mkTestState kingsOnlyBoard true (7, 4) (0, 4) none ⟨false, false, false, false⟩

/-- C2: with an enemy knight on a knight-offset square from the
side-to-move's king (and no other attacker), the detector appends the
knight (with its probing offset) to `checks`, but the returned
`inCheck` flag is `false`: `_checkForKnightChecks` assigns
`in_check = True` to its local parameter only, and the caller's
`in_check` - bound before the call - never changes.  The claim's
`inCheck = true` half therefore fails on the code. -/
theorem c2_knight_check_flag_lost :
    checkForPinsAndChecks knightCheckState =
      (false, [], [⟨5, 3, -2, -1⟩]) := by decide

/-- C3: with white to move, a black pawn on the down-right diagonal
square adjacent to the white king ((5,5) next to (4,4), direction
index 7) is accepted by the attack rule and recorded as a check, even
though a black pawn there attacks away from the king.  The pawn
clause of `_isValidAttackDirection` returns
`direction_index in (4, 5, 6, 7)` for both colors instead of
restricting to the two diagonals pointing at the pawn's forward
direction, contradicting its own comment. -/
theorem c3_pawn_wrong_diagonal_registers :
    checkForPinsAndChecks pawnDiagState = (true, [], [⟨5, 5, 1, 1⟩]) ∧
      isValidAttackDirection 6 .p 1 = true ∧ isValidAttackDirection 7 .p 1 = true := by
  decide

/-- C5: in a position where the only check is a knight check, the
detector's `in_check` stays `false` (see `c2_knight_check_flag_lost`),
so `getValidMoves` takes the no-check branch and applies no
restriction at all: the rook move (3,0)->(3,1) - a non-king move that
neither captures the checking knight on (5,3) nor blocks - is
returned.  The knight-capture restriction branch of the filter is
unreachable for a lone knight check. -/
theorem c5_knight_check_moves_unrestricted :
    checkForPinsAndChecks knightCheckState = (false, [], [⟨5, 3, -2, -1⟩]) ∧
      mkMove 3 0 3 1 knightCheckState.board false false ∈ (getValidMoves knightCheckState).1 ∧
      (mkMove 3 0 3 1 knightCheckState.board false false).piece_moved.kind ≠ some .K ∧
      ((3 : Int), (1 : Int)) ≠ ((5 : Int), (3 : Int)) := by decide

/-- C8: capturing en passant toward the right with the king on the
same rank: the outside scan `range(col+1, 8)` starts at the captured
pawn's own square (the capture removes the pawn on `col+1`, not
`col-1`), so the captured pawn registers as a blocking piece and the
move is appended even though removing both pawns exposes the king on
(3,0) to the rook on (3,7) across otherwise empty squares.  The
suppression rule only matches the claim for captures toward the
left. -/
theorem c8_ep_discovery_not_suppressed :
    mkMove 3 4 2 5 epDiscoveryState.board true false ∈
      (getPawnMoves epDiscoveryState 3 4 []).1 := by decide

/-- C7 counterexample: `undoMove` on a state with empty move history
returns the state unchanged - a silent no-op, not an explicit error
signal. -/
theorem c7_empty_undo_silent_noop :
    kingsOnlyState.move_log = [] ∧ undoMove kingsOnlyState = kingsOnlyState :=
  ⟨rfl, rfl⟩

/-- C7 amended: calling `undoMove` with empty move history is a
silent no-op that returns with the state unchanged (the source's
`if not self.move_log: return`). -/
theorem c7_amended_empty_undo_is_noop (s : GameState) (h : s.move_log = []) :
    undoMove s = s := by
  unfold undoMove
  rw [h]

/-- Witness for `c7_amended_empty_undo_is_noop` at a concrete state. -/
theorem c7_amended_witness :
    kingsOnlyState.move_log = [] ∧ undoMove kingsOnlyState = kingsOnlyState :=
  ⟨rfl, c7_amended_empty_undo_is_noop kingsOnlyState rfl⟩

/-- The checkmate sentinel: `evaluation.py` documents the score as
+1000 (white wins) / -1000 (black wins), and the search seeds its
window and running maximum with this constant. -/
def CHECKMATE_SCORE : Int := 1000

/-- A game tree abstracting the `makeMove` / `getValidMoves` /
`undoMove` walk of the search (justified by the exact-restore round
trip of `c1_make_undo_restores`): each node carries the static
evaluation the leaf case would compute (`scoreBoard` of the position,
including its terminal flags) and the ordered, labelled list of child
positions produced by `getValidMoves`. -/
inductive GTree where
  | node (eval : Int) (children : List (Nat × GTree))

def GTree.eval : GTree → Int
  | .node e _ => e

def GTree.children : GTree → List (Nat × GTree)
  | .node _ cs => cs

/-- The move loop of `findMoveNegaMaxAlphaBeta` at non-root nodes: for
each move, score the child with negated, swapped window and negated
turn multiplier; keep the running maximum (initialised to
`-CHECKMATE_SCORE` by the caller); raise alpha to the running maximum;
break once alpha >= beta.  `f` is the recursive call at depth - 1. -/
def abLoop (f : GTree → Int → Int → Int → Int) :
    List (Nat × GTree) → Int → Int → Int → Int → Int
  | [], _, _, _, max_score => max_score
  | (_, c) :: rest, alpha, beta, tm, max_score =>
    let score := -f c (-beta) (-alpha) (-tm)
    let max_score' := if score > max_score then score else max_score
    let alpha' := if max_score' > alpha then max_score' else alpha
    if alpha' ≥ beta then max_score'
    else abLoop f rest alpha' beta tm max_score'

/-- `findMoveNegaMaxAlphaBeta` below the root: at depth 0 return
`turn_multiplier * scoreBoard(position)` (the node's evaluation);
otherwise run the alpha-beta move loop over the node's children with
running maximum `-CHECKMATE_SCORE`. -/
def abScore : Nat → GTree → Int → Int → Int → Int
  | 0, t, _, _, tm => tm * t.eval
  | d + 1, t, alpha, beta, tm => abLoop (abScore d) t.children alpha beta tm (-CHECKMATE_SCORE)

/-- The root-level move loop: identical to `abLoop`, except that a new
running best also records the move (the source's `next_move = move`
guarded by `depth == AI_DEPTH`, true only at the root). -/
def abRootLoop (f : GTree → Int → Int → Int → Int) :
    List (Nat × GTree) → Int → Int → Int → Int → Option Nat → Int × Option Nat
  | [], _, _, _, max_score, best => (max_score, best)
  | (lbl, c) :: rest, alpha, beta, tm, max_score, best =>
    let score := -f c (-beta) (-alpha) (-tm)
    let p := if score > max_score then (score, some lbl) else (max_score, best)
    let alpha' := if p.1 > alpha then p.1 else alpha
    if alpha' ≥ beta then p
    else abRootLoop f rest alpha' beta tm p.1 p.2

/-- The root call of `findMoveNegaMaxAlphaBeta` with the window
`(-CHECKMATE_SCORE, CHECKMATE_SCORE)` supplied by `findBestMove`:
returns the root score and the recorded best move (`none` when no
score ever exceeded the initial running maximum). -/
def searchRoot (t : GTree) (d : Nat) (tm : Int) : Int × Option Nat :=
  match d with
  | 0 => (tm * t.eval, none)
  | d' + 1 =>
    abRootLoop (abScore d') t.children (-CHECKMATE_SCORE) CHECKMATE_SCORE tm
      (-CHECKMATE_SCORE) none

/-- `findBestMove`: seeds `next_move = None`, runs the root search at
the configured depth with turn multiplier +1 for white and -1 for
black, and delivers whatever `next_move` holds through the result
queue.  The caller's `random.shuffle` only permutes the child order,
over which the theorems quantify. -/
def findBestMove (t : GTree) (d : Nat) (white_to_move : Bool) : Option Nat :=
  (searchRoot t d (if white_to_move then 1 else -1)).2

/-- Modelled from the spec (section 8, pruned-search equivalence): the
exhaustive full-width negamax reference - the same recursion with the
same initial running maximum and the same move order, but no window
and no cutoff. -/
def negamaxFull : Nat → GTree → Int → Int
  | 0, t, tm => tm * t.eval
  | d + 1, t, tm =>
    t.children.foldl (fun mx c => max mx (-negamaxFull d c.2 (-tm))) (-CHECKMATE_SCORE)

/-- Modelled from the spec: the root loop of the full-width reference,
recording the move on every strict improvement of the running
maximum, exactly as the pruned root loop does. -/
def fullRootLoop (f : GTree → Int → Int) :
    List (Nat × GTree) → Int → Int → Option Nat → Int × Option Nat
  | [], _, max_score, best => (max_score, best)
  | (lbl, c) :: rest, tm, max_score, best =>
    let score := -f c (-tm)
    if score > max_score then fullRootLoop f rest tm score (some lbl)
    else fullRootLoop f rest tm max_score best

/-- Modelled from the spec: the full-width reference search at the
root. -/
def fullRoot (t : GTree) (d : Nat) (tm : Int) : Int × Option Nat :=
  match d with
  | 0 => (tm * t.eval, none)
  | d' + 1 => fullRootLoop (negamaxFull d') t.children tm (-CHECKMATE_SCORE) none

mutual

/-- Evaluations bounded by the checkmate sentinel, the interface
contract of `scoreBoard` (its magnitude peaks at the sentinel, reached
exactly on checkmate). -/
def boundedT : GTree → Bool
  | .node e cs => decide (-CHECKMATE_SCORE ≤ e ∧ e ≤ CHECKMATE_SCORE) && boundedL cs

/-- Pointwise `boundedT` over a child list. -/
def boundedL : List (Nat × GTree) → Bool
  | [] => true
  | c :: rest => boundedT c.2 && boundedL rest

end

/-- The inner fold of `negamaxFull` at depth `d + 1`, starting from a
given running maximum. -/
def fullFold (d : Nat) (tm : Int) (cs : List (Nat × GTree)) (m : Int) : Int :=
  cs.foldl (fun mx c => max mx (-negamaxFull d c.2 (-tm))) m

theorem fullFold_nil (d : Nat) (tm m : Int) : fullFold d tm [] m = m := rfl

theorem fullFold_cons (d : Nat) (tm m : Int) (c : Nat × GTree) (cs : List (Nat × GTree)) :
    fullFold d tm (c :: cs) m = fullFold d tm cs (max m (-negamaxFull d c.2 (-tm))) := rfl

theorem negamaxFull_succ (d : Nat) (t : GTree) (tm : Int) :
    negamaxFull (d + 1) t tm = fullFold d tm t.children (-CHECKMATE_SCORE) := rfl

theorem fullFold_ge_init (d : Nat) (tm : Int) :
    ∀ (cs : List (Nat × GTree)) (m : Int), m ≤ fullFold d tm cs m := by
  intro cs
  induction cs with
  | nil => intro m; simp [fullFold_nil]
  | cons c rest ih =>
    intro m
    rw [fullFold_cons]
    exact le_trans (le_max_left _ _) (ih _)

theorem fullFold_mono (d : Nat) (tm : Int) :
    ∀ (cs : List (Nat × GTree)) (a b : Int), a ≤ b →
      fullFold d tm cs a ≤ fullFold d tm cs b := by
  intro cs
  induction cs with
  | nil => intro a b h; simpa [fullFold_nil] using h
  | cons c rest ih =>
    intro a b h
    rw [fullFold_cons, fullFold_cons]
    exact ih _ _ (by omega)

theorem fullFold_max_left (d : Nat) (tm : Int) :
    ∀ (cs : List (Nat × GTree)) (a b : Int),
      fullFold d tm cs (max a b) = max a (fullFold d tm cs b) := by
  intro cs
  induction cs with
  | nil => intro a b; simp [fullFold_nil]
  | cons c rest ih =>
    intro a b
    rw [fullFold_cons, fullFold_cons]
    have h : max (max a b) (-negamaxFull d c.2 (-tm)) =
        max a (max b (-negamaxFull d c.2 (-tm))) := by omega
    rw [h, ih]

theorem abLoop_bounds (d : Nat) (beta tm : Int) (hbeta : beta ≤ CHECKMATE_SCORE)
    (Hf : ∀ (c : GTree) (lo hi : Int), -CHECKMATE_SCORE ≤ lo → lo < hi → hi ≤ CHECKMATE_SCORE →
      min hi (negamaxFull d c (-tm)) ≤ abScore d c lo hi (-tm) ∧
      abScore d c lo hi (-tm) ≤ max lo (negamaxFull d c (-tm))) :
    ∀ (cs : List (Nat × GTree)) (alpha0 m : Int), -CHECKMATE_SCORE ≤ alpha0 →
      -CHECKMATE_SCORE ≤ m → max alpha0 m < beta →
      min beta (fullFold d tm cs m) ≤ abLoop (abScore d) cs (max alpha0 m) beta tm m ∧
      abLoop (abScore d) cs (max alpha0 m) beta tm m ≤ max alpha0 (fullFold d tm cs m) := by
  intro cs
  induction cs with
  | nil =>
    intro alpha0 m h0 hm hlt
    simp only [abLoop, fullFold_nil]
    omega
  | cons c rest ih =>
    intro alpha0 m h0 hm hlt
    have hC : CHECKMATE_SCORE = 1000 := rfl
    obtain ⟨hf1, hf2⟩ := Hf c.2 (-beta) (-(max alpha0 m)) (by omega) (by omega) (by omega)
    rw [fullFold_cons]
    simp only [abLoop]
    set w := negamaxFull d c.2 (-tm) with hw
    set fc := abScore d c.2 (-beta) (-(max alpha0 m)) (-tm) with hfc
    have hge : max m (-w) ≤ fullFold d tm rest (max m (-w)) := fullFold_ge_init d tm rest _
    split_ifs with h1 h2 h3 h3 h2 h3 h3
    · -- updated, alpha raised, break
      omega
    · -- updated, alpha raised, continue
      have hu : -w < beta := by omega
      have hA : -fc = max alpha0 (-fc) := by omega
      have hlow : fullFold d tm rest (max m (-w)) ≤ fullFold d tm rest (-fc) :=
        fullFold_mono d tm rest _ _ (by omega)
      have hup : fullFold d tm rest (-fc) ≤ max alpha0 (fullFold d tm rest (max m (-w))) := by
        have h5 : fullFold d tm rest (-fc) ≤
            fullFold d tm rest (max alpha0 (max m (-w))) :=
          fullFold_mono d tm rest _ _ (by omega)
        have h6 : fullFold d tm rest (max alpha0 (max m (-w))) =
            max alpha0 (fullFold d tm rest (max m (-w))) := fullFold_max_left d tm rest _ _
        omega
      have := ih alpha0 (-fc) h0 (by omega) (by omega)
      rw [← hA] at this
      omega
    · -- updated, alpha not raised, break: alpha stayed below beta
      omega
    · -- updated, alpha not raised, continue
      have hu : -w < beta := by omega
      have hA : max alpha0 m = max alpha0 (-fc) := by omega
      have hlow : fullFold d tm rest (max m (-w)) ≤ fullFold d tm rest (-fc) :=
        fullFold_mono d tm rest _ _ (by omega)
      have hup : fullFold d tm rest (-fc) ≤ max alpha0 (fullFold d tm rest (max m (-w))) := by
        have h5 : fullFold d tm rest (-fc) ≤
            fullFold d tm rest (max alpha0 (max m (-w))) :=
          fullFold_mono d tm rest _ _ (by omega)
        have h6 : fullFold d tm rest (max alpha0 (max m (-w))) =
            max alpha0 (fullFold d tm rest (max m (-w))) := fullFold_max_left d tm rest _ _
        omega
      have := ih alpha0 (-fc) h0 (by omega) (by omega)
      rw [← hA] at this
      omega
    · -- not updated, alpha "raised": impossible
      omega
    · omega
    · -- not updated, not raised, break: contradiction (max alpha0 m < beta)
      omega
    · -- not updated, continue
      have hu : -w < beta := by omega
      have hlow : fullFold d tm rest (max m (-w)) ≤ fullFold d tm rest m :=
        fullFold_mono d tm rest _ _ (by omega)
      have hup : fullFold d tm rest m ≤ max alpha0 (fullFold d tm rest (max m (-w))) := by
        have h5 : fullFold d tm rest m ≤ fullFold d tm rest (max alpha0 (max m (-w))) :=
          fullFold_mono d tm rest _ _ (by omega)
        have h6 : fullFold d tm rest (max alpha0 (max m (-w))) =
            max alpha0 (fullFold d tm rest (max m (-w))) := fullFold_max_left d tm rest _ _
        omega
      have := ih alpha0 m h0 hm (by omega)
      omega

theorem abScore_bounds (d : Nat) :
    ∀ (t : GTree) (lo hi tm : Int), -CHECKMATE_SCORE ≤ lo → lo < hi → hi ≤ CHECKMATE_SCORE →
      min hi (negamaxFull d t tm) ≤ abScore d t lo hi tm ∧
      abScore d t lo hi tm ≤ max lo (negamaxFull d t tm) := by
  induction d with
  | zero =>
    intro t lo hi tm _ _ _
    simp only [abScore, negamaxFull]
    omega
  | succ d ih =>
    intro t lo hi tm h0 hlt hhi
    have hf : ∀ (c : GTree) (lo' hi' : Int), -CHECKMATE_SCORE ≤ lo' → lo' < hi' →
        hi' ≤ CHECKMATE_SCORE →
        min hi' (negamaxFull d c (-tm)) ≤ abScore d c lo' hi' (-tm) ∧
        abScore d c lo' hi' (-tm) ≤ max lo' (negamaxFull d c (-tm)) := by
      intro c lo' hi' a b e
      exact ih c lo' hi' (-tm) a b e
    have hC : CHECKMATE_SCORE = 1000 := rfl
    have hkey := abLoop_bounds d hi tm hhi hf t.children lo (-CHECKMATE_SCORE) h0 (by omega)
      (by omega)
    have hmax : max lo (-CHECKMATE_SCORE) = lo := by omega
    rw [hmax] at hkey
    simpa only [abScore, negamaxFull_succ] using hkey

theorem boundedL_mem :
    ∀ (cs : List (Nat × GTree)) (c : Nat × GTree), boundedL cs = true → c ∈ cs →
      boundedT c.2 = true := by
  intro cs
  induction cs with
  | nil => intro c _ hm; cases hm
  | cons x rest ih =>
    intro c hb hm
    simp only [boundedL, Bool.and_eq_true] at hb
    rcases hm with _ | hm
    · exact hb.1
    · exact ih c hb.2 (by assumption)

theorem negamaxFull_bounded (d : Nat) :
    ∀ (t : GTree) (tm : Int), boundedT t = true → (tm = 1 ∨ tm = -1) →
      -CHECKMATE_SCORE ≤ negamaxFull d t tm ∧ negamaxFull d t tm ≤ CHECKMATE_SCORE := by
  induction d with
  | zero =>
    intro t tm hb htm
    cases t with
    | node e cs =>
      simp only [boundedT, Bool.and_eq_true, decide_eq_true_eq] at hb
      simp only [negamaxFull, GTree.eval]
      have hC : CHECKMATE_SCORE = 1000 := rfl
      rcases htm with rfl | rfl <;> [skip; skip] <;> omega
  | succ d ih =>
    intro t tm hb htm
    cases t with
    | node e cs =>
      simp only [boundedT, Bool.and_eq_true, decide_eq_true_eq] at hb
      have key : ∀ (l : List (Nat × GTree)), boundedL l = true →
          ∀ m : Int, -CHECKMATE_SCORE ≤ m → m ≤ CHECKMATE_SCORE →
          -CHECKMATE_SCORE ≤ fullFold d tm l m ∧ fullFold d tm l m ≤ CHECKMATE_SCORE := by
        intro l
        induction l with
        | nil => intro _ m a b; simpa [fullFold_nil] using ⟨a, b⟩
        | cons x rest ihl =>
          intro hbl m a b
          simp only [boundedL, Bool.and_eq_true] at hbl
          rw [fullFold_cons]
          have hx := ih x.2 (-tm) hbl.1 (by rcases htm with rfl | rfl <;> simp)
          exact ihl hbl.2 _ (by omega) (by omega)
      have := key cs hb.2 (-CHECKMATE_SCORE) (le_refl _) (by omega)
      simpa only [negamaxFull_succ, GTree.children] using this

theorem fullRootLoop_no_update (d : Nat) (tm : Int) :
    ∀ (cs : List (Nat × GTree)) (m : Int) (best : Option Nat),
      (∀ c ∈ cs, -negamaxFull d c.2 (-tm) ≤ m) →
      fullRootLoop (negamaxFull d) cs tm m best = (m, best) := by
  intro cs
  induction cs with
  | nil => intro m best _; rfl
  | cons c rest ih =>
    intro m best h
    have hc := h c (List.mem_cons_self c rest)
    simp only [fullRootLoop, if_neg (by omega : ¬(-negamaxFull d c.2 (-tm) > m))]
    exact ih m best (fun x hx => h x (List.mem_cons_of_mem c hx))

theorem abRootLoop_eq_fullRootLoop (d : Nat) (tm : Int)
    (Hf : ∀ (c : GTree) (lo hi : Int), -CHECKMATE_SCORE ≤ lo → lo < hi →
      hi ≤ CHECKMATE_SCORE →
      min hi (negamaxFull d c (-tm)) ≤ abScore d c lo hi (-tm) ∧
      abScore d c lo hi (-tm) ≤ max lo (negamaxFull d c (-tm))) :
    ∀ (cs : List (Nat × GTree)) (m : Int) (best : Option Nat),
      -CHECKMATE_SCORE ≤ m → m < CHECKMATE_SCORE →
      (∀ c ∈ cs, -CHECKMATE_SCORE ≤ -negamaxFull d c.2 (-tm) ∧
        -negamaxFull d c.2 (-tm) ≤ CHECKMATE_SCORE) →
      abRootLoop (abScore d) cs m CHECKMATE_SCORE tm m best =
        fullRootLoop (negamaxFull d) cs tm m best := by
  intro cs
  induction cs with
  | nil => intro m best _ _ _; rfl
  | cons c rest ih =>
    intro m best hm hmlt hbnd
    have hC : CHECKMATE_SCORE = 1000 := rfl
    obtain ⟨hb1, hb2⟩ := hbnd c (List.mem_cons_self c rest)
    obtain ⟨hf1, hf2⟩ := Hf c.2 (-CHECKMATE_SCORE) (-m) (by omega) (by omega) (by omega)
    set w := negamaxFull d c.2 (-tm) with hw
    set fc := abScore d c.2 (-CHECKMATE_SCORE) (-m) (-tm) with hfc
    have hrest : ∀ x ∈ rest, -CHECKMATE_SCORE ≤ -negamaxFull d x.2 (-tm) ∧
        -negamaxFull d x.2 (-tm) ≤ CHECKMATE_SCORE :=
      fun x hx => hbnd x (List.mem_cons_of_mem c hx)
    by_cases hcmp : -w > m
    · -- strict improvement: the pruned score is exact
      have hexact : -fc = -w := by omega
      simp only [abRootLoop, fullRootLoop]
      rw [if_pos (by omega : -fc > m), if_pos (by omega : -w > m)]
      simp only
      rw [if_pos (by omega : -fc > m)]
      by_cases hbrk : -fc ≥ CHECKMATE_SCORE
      · rw [if_pos hbrk]
        have : fullRootLoop (negamaxFull d) rest tm (-w) (some c.1) = (-w, some c.1) :=
          fullRootLoop_no_update d tm rest (-w) (some c.1)
            (fun x hx => by have := (hrest x hx).2; omega)
        rw [this]
        exact Prod.ext (by omega) rfl
      · rw [if_neg hbrk]
        have := ih (-fc) (some c.1) (by omega) (by omega) hrest
        rw [hexact] at this ⊢
        exact this
    · -- no improvement on either side
      have hsc : -fc ≤ m := by omega
      simp only [abRootLoop, fullRootLoop]
      rw [if_neg (by omega : ¬(-fc > m)), if_neg (by omega : ¬(-w > m))]
      simp only
      rw [if_neg (by omega : ¬(m > m))]
      rw [if_neg (by omega : ¬(m ≥ CHECKMATE_SCORE))]
      exact ih m best hm hmlt hrest

/-- The pruned root search and the full-width reference agree in both
score and recorded move, for any position tree with evaluations
bounded by the sentinel and a legitimate turn multiplier. -/
theorem searchRoot_eq_fullRoot (t : GTree) (d : Nat) (tm : Int)
    (hb : boundedT t = true) (htm : tm = 1 ∨ tm = -1) :
    searchRoot t d tm = fullRoot t d tm := by
  cases d with
  | zero => rfl
  | succ d' =>
    have hC : CHECKMATE_SCORE = 1000 := rfl
    cases t with
    | node e cs =>
      simp only [boundedT, Bool.and_eq_true, decide_eq_true_eq] at hb
      have htm' : -tm = 1 ∨ -tm = -1 := by rcases htm with rfl | rfl <;> simp
      have hbnd : ∀ c ∈ cs, -CHECKMATE_SCORE ≤ -negamaxFull d' c.2 (-tm) ∧
          -negamaxFull d' c.2 (-tm) ≤ CHECKMATE_SCORE := by
        intro c hc
        have := negamaxFull_bounded d' c.2 (-tm) (boundedL_mem cs c hb.2 hc) htm'
        omega
      have hf : ∀ (c : GTree) (lo hi : Int), -CHECKMATE_SCORE ≤ lo → lo < hi →
          hi ≤ CHECKMATE_SCORE →
          min hi (negamaxFull d' c (-tm)) ≤ abScore d' c lo hi (-tm) ∧
          abScore d' c lo hi (-tm) ≤ max lo (negamaxFull d' c (-tm)) := by
        intro c lo hi a b e2
        exact abScore_bounds d' c lo hi (-tm) a b e2
      have key := abRootLoop_eq_fullRootLoop d' tm hf cs (-CHECKMATE_SCORE) none (le_refl _)
        (by omega) hbnd
      simpa only [searchRoot, fullRoot, GTree.children] using key

theorem fullRootLoop_best_of_some (d : Nat) (tm : Int) :
    ∀ (cs : List (Nat × GTree)) (m : Int) (lbl : Nat),
      ∃ lbl', (fullRootLoop (negamaxFull d) cs tm m (some lbl)).2 = some lbl' ∧
        (lbl' = lbl ∨ lbl' ∈ cs.map Prod.fst) := by
  intro cs
  induction cs with
  | nil => intro m lbl; exact ⟨lbl, rfl, Or.inl rfl⟩
  | cons c rest ih =>
    intro m lbl
    simp only [fullRootLoop]
    by_cases h : -negamaxFull d c.2 (-tm) > m
    · rw [if_pos h]
      obtain ⟨lbl', h1, h2⟩ := ih (-negamaxFull d c.2 (-tm)) c.1
      refine ⟨lbl', h1, Or.inr ?_⟩
      rcases h2 with rfl | h2
      · simp
      · simp [h2]
    · rw [if_neg h]
      obtain ⟨lbl', h1, h2⟩ := ih m lbl
      refine ⟨lbl', h1, ?_⟩
      rcases h2 with rfl | h2
      · exact Or.inl rfl
      · exact Or.inr (by simp [h2])

theorem fullRootLoop_gt_of_none (d : Nat) (tm : Int) :
    ∀ (cs : List (Nat × GTree)) (m : Int),
      (fullRootLoop (negamaxFull d) cs tm m none).1 > m →
      ∃ lbl ∈ cs.map Prod.fst, (fullRootLoop (negamaxFull d) cs tm m none).2 = some lbl := by
  intro cs
  induction cs with
  | nil => intro m h; simp only [fullRootLoop] at h; omega
  | cons c rest ih =>
    intro m h
    simp only [fullRootLoop] at h ⊢
    by_cases hc : -negamaxFull d c.2 (-tm) > m
    · rw [if_pos hc] at h ⊢
      obtain ⟨lbl', h1, h2⟩ := fullRootLoop_best_of_some d tm rest
        (-negamaxFull d c.2 (-tm)) c.1
      refine ⟨lbl', ?_, h1⟩
      rcases h2 with rfl | h2
      · simp
      · simp [h2]
    · rw [if_neg hc] at h ⊢
      obtain ⟨lbl, h1, h2⟩ := ih m h
      exact ⟨lbl, by simp [h1], h2⟩

/-- The tree on which `findBestMove` delivers no move: the only root
move leads to a position where the opponent mates at once, so every
root score equals `-CHECKMATE_SCORE` and `next_move` is never set. -/
def c6tree : GTree := .node 0 [(0, .node 0 [(0, .node (-1000) [])])]

/-- C6 counterexample: with the non-empty root move list of `c6tree`
(one move, after which the opponent has one reply reaching a position
evaluated at `-CHECKMATE_SCORE` for the mover), `findBestMove` at
depth 2 puts `None` on the result queue: the root score never exceeds
the initial running maximum `-CHECKMATE_SCORE`, so `next_move` is
never assigned. -/
theorem c6_forced_mate_returns_none :
    c6tree.children.length = 1 ∧ findBestMove c6tree 2 true = none :=
  ⟨by simp [c6tree, GTree.children], by decide⟩

/-- C6 amended: `findBestMove` delivers a move from the root list
whenever (depth at least 1, evaluations bounded by the sentinel) the
full-width root value exceeds `-CHECKMATE_SCORE`; when every root line
scores `-CHECKMATE_SCORE` or below - e.g. every move allows a forced
mate of the mover - `next_move` is never assigned and the queue
receives a null result. -/
theorem c6_amended_delivers_when_not_lost (t : GTree) (d : Nat) (w : Bool)
    (hb : boundedT t = true) (hd : 1 ≤ d)
    (hv : (fullRoot t d (if w then 1 else -1)).1 > -CHECKMATE_SCORE) :
    ∃ lbl ∈ t.children.map Prod.fst, findBestMove t d w = some lbl := by
  have htm : (if w then (1 : Int) else -1) = 1 ∨ (if w then (1 : Int) else -1) = -1 := by
    cases w <;> simp
  obtain ⟨d', rfl⟩ : ∃ d', d = d' + 1 := ⟨d - 1, by omega⟩
  have heq := searchRoot_eq_fullRoot t (d' + 1) (if w then 1 else -1) hb htm
  unfold findBestMove
  rw [heq]
  cases t with
  | node e cs =>
    simp only [fullRoot, GTree.children] at hv ⊢
    exact fullRootLoop_gt_of_none d' (if w then 1 else -1) cs (-CHECKMATE_SCORE) hv

/-- Witness for `c6_amended_delivers_when_not_lost`: a tree whose
single root move scores above the sentinel floor. -/
theorem c6_amended_witness :
    boundedT (GTree.node 0 [(5, GTree.node (-3) [])]) = true ∧
    ∃ lbl ∈ (GTree.node 0 [(5, GTree.node (-3) [])]).children.map Prod.fst,
      findBestMove (GTree.node 0 [(5, GTree.node (-3) [])]) 1 true = some lbl :=
  ⟨by decide,
   c6_amended_delivers_when_not_lost (GTree.node 0 [(5, GTree.node (-3) [])]) 1 true
     (by decide) (by decide) (by decide)⟩

/-- The components of the state that a legality query must not change
(the persisted position together with the terminal flags; the
transient `in_check`/`pins`/`checks` fields are exempt). -/
structure Pres (s s' : GameState) : Prop where
  board : s'.board = s.board
  side : s'.white_to_move = s.white_to_move
  log : s'.move_log = s.move_log
  wk : s'.white_king_location = s.white_king_location
  bk : s'.black_king_location = s.black_king_location
  cm : s'.checkmate = s.checkmate
  sm : s'.stalemate = s.stalemate
  ept : s'.enpassant_possible = s.enpassant_possible
  eplog : s'.enpassant_possible_log = s.enpassant_possible_log
  cr : s'.current_castling_rights = s.current_castling_rights
  crlog : s'.castle_rights_log = s.castle_rights_log

theorem pres_refl (s : GameState) : Pres s s :=
  ⟨rfl, rfl, rfl, rfl, rfl, rfl, rfl, rfl, rfl, rfl, rfl⟩

theorem Pres.trans {s t u : GameState} (h1 : Pres s t) (h2 : Pres t u) : Pres s u :=
  ⟨h2.board.trans h1.board, h2.side.trans h1.side, h2.log.trans h1.log,
   h2.wk.trans h1.wk, h2.bk.trans h1.bk, h2.cm.trans h1.cm, h2.sm.trans h1.sm,
   h2.ept.trans h1.ept, h2.eplog.trans h1.eplog, h2.cr.trans h1.cr,
   h2.crlog.trans h1.crlog⟩

/-- King-location consistency: every king piece on the 8x8 board
stands on the square the corresponding king-location field records
(an invariant of every reachable position, maintained by
`makeMove`/`undoMove`). -/
def KingsConsistent (s : GameState) : Prop :=
  ∀ (r c : Fin 8),
    (bget s.board (r.1 : Int) (c.1 : Int) = Piece.pc .w .K →
      ((r.1 : Int), (c.1 : Int)) = s.white_king_location) ∧
    (bget s.board (r.1 : Int) (c.1 : Int) = Piece.pc .b .K →
      ((r.1 : Int), (c.1 : Int)) = s.black_king_location)

instance (s : GameState) : Decidable (KingsConsistent s) := by
  unfold KingsConsistent
  infer_instance

theorem kingsConsistent_of_pres {s s' : GameState} (hkc : KingsConsistent s)
    (hp : Pres s s') : KingsConsistent s' := by
  intro r c
  rw [hp.board, hp.wk, hp.bk]
  exact hkc r c

/-- A fold whose every step preserves `Pres` relative to a fixed base
state preserves it overall. -/
theorem foldl_pres_mem {β : Type} (s : GameState)
    (step : List Move × GameState → β → List Move × GameState) :
    ∀ (l : List β),
      (∀ x ∈ l, ∀ acc : List Move × GameState, Pres s acc.2 → Pres s (step acc x).2) →
      ∀ acc : List Move × GameState, Pres s acc.2 → Pres s (l.foldl step acc).2 := by
  intro l
  induction l with
  | nil => intro _ acc h0; exact h0
  | cons x rest ih =>
    intro h acc h0
    exact ih (fun y hy => h y (List.mem_cons_of_mem x hy)) (step acc x)
      (h x (List.mem_cons_self x rest) acc h0)

theorem pres_gsCheckForPinsAndChecks (s : GameState) :
    Pres s (gsCheckForPinsAndChecks s).2 :=
  ⟨rfl, rfl, rfl, rfl, rfl, rfl, rfl, rfl, rfl, rfl, rfl⟩

theorem pres_getPawnMoves (s : GameState) (row col : Int) (moves : List Move) :
    Pres s (getPawnMoves s row col moves).2 :=
  ⟨rfl, rfl, rfl, rfl, rfl, rfl, rfl, rfl, rfl, rfl, rfl⟩

theorem pres_getRookMoves (s : GameState) (row col : Int) (moves : List Move) :
    Pres s (getRookMoves s row col moves).2 :=
  ⟨rfl, rfl, rfl, rfl, rfl, rfl, rfl, rfl, rfl, rfl, rfl⟩

theorem pres_getKnightMoves (s : GameState) (row col : Int) (moves : List Move) :
    Pres s (getKnightMoves s row col moves).2 :=
  ⟨rfl, rfl, rfl, rfl, rfl, rfl, rfl, rfl, rfl, rfl, rfl⟩

theorem pres_getBishopMoves (s : GameState) (row col : Int) (moves : List Move) :
    Pres s (getBishopMoves s row col moves).2 :=
  ⟨rfl, rfl, rfl, rfl, rfl, rfl, rfl, rfl, rfl, rfl, rfl⟩

theorem pres_getQueenMoves (s : GameState) (row col : Int) (moves : List Move) :
    Pres s (getQueenMoves s row col moves).2 :=
  Pres.trans (pres_getRookMoves s row col moves)
    (pres_getBishopMoves (getRookMoves s row col moves).2 row col
      (getRookMoves s row col moves).1)

/-- The king generator restores the king-location field it relocated,
provided it was invoked at the recorded king square. -/
theorem pres_getKingMoves (s : GameState) (row col : Int) (moves : List Move)
    (hkl : (if s.white_to_move then s.white_king_location else s.black_king_location) =
      (row, col)) :
    Pres s (getKingMoves s row col moves).2 := by
  unfold getKingMoves
  apply foldl_pres_mem s _ kingOffsets _ (moves, s) (pres_refl s)
  intro mv _ acc hacc
  dsimp only
  cases hsw : s.white_to_move with
  | true =>
    simp only [hsw, eq_self_iff_true, if_true, ite_true] at hkl ⊢
    split_ifs with hb hcol hdet
    · exact ⟨hacc.board, hacc.side, hacc.log, hkl.symm, hacc.bk, hacc.cm, hacc.sm,
        hacc.ept, hacc.eplog, hacc.cr, hacc.crlog⟩
    · exact ⟨hacc.board, hacc.side, hacc.log, hkl.symm, hacc.bk, hacc.cm, hacc.sm,
        hacc.ept, hacc.eplog, hacc.cr, hacc.crlog⟩
    · exact hacc
    · exact hacc
  | false =>
    simp only [hsw, Bool.false_eq_true, if_false, ite_false] at hkl ⊢
    have hbw : (PColor.b = PColor.w) = False := eq_false (by simp)
    simp only [hbw, if_false]
    split_ifs with hb hcol hdet
    · exact ⟨hacc.board, hacc.side, hacc.log, hacc.wk, hkl.symm, hacc.cm, hacc.sm,
        hacc.ept, hacc.eplog, hacc.cr, hacc.crlog⟩
    · exact ⟨hacc.board, hacc.side, hacc.log, hacc.wk, hkl.symm, hacc.cm, hacc.sm,
        hacc.ept, hacc.eplog, hacc.cr, hacc.crlog⟩
    · exact hacc
    · exact hacc

theorem pres_getAllPossibleMoves (s : GameState) (hkc : KingsConsistent s) :
    Pres s (getAllPossibleMoves s).2 := by
  unfold getAllPossibleMoves
  apply foldl_pres_mem s _ (List.range 8) _ ([], s) (pres_refl s)
  intro r hr acc0 hacc0
  apply foldl_pres_mem s _ (List.range 8) _ acc0 hacc0
  intro c hc acc hacc
  dsimp only
  split_ifs with hdisp
  · rcases hk : (bget acc.2.board (r : Int) (c : Int)).kind with _ | k
    · simp only [hk]; exact hacc
    · cases k with
      | p => simp only [hk]; exact Pres.trans hacc (pres_getPawnMoves acc.2 _ _ acc.1)
      | R => simp only [hk]; exact Pres.trans hacc (pres_getRookMoves acc.2 _ _ acc.1)
      | N => simp only [hk]; exact Pres.trans hacc (pres_getKnightMoves acc.2 _ _ acc.1)
      | B => simp only [hk]; exact Pres.trans hacc (pres_getBishopMoves acc.2 _ _ acc.1)
      | Q => simp only [hk]; exact Pres.trans hacc (pres_getQueenMoves acc.2 _ _ acc.1)
      | K =>
        simp only [hk]
        apply Pres.trans hacc
        apply pres_getKingMoves acc.2 (r : Int) (c : Int) acc.1
        have hkc' := kingsConsistent_of_pres hkc hacc
        have hrr : r < 8 := List.mem_range.1 hr
        have hcc : c < 8 := List.mem_range.1 hc
        rcases hpiece : bget acc.2.board (r : Int) (c : Int) with _ | ⟨pcol, pk⟩
        · rw [hpiece] at hk; simp [Piece.kind] at hk
        · rw [hpiece] at hk
          simp only [Piece.kind, Option.some.injEq] at hk
          subst hk
          rcases hdisp with ⟨hcw, hsw⟩ | ⟨hcb, hsw⟩
          · rw [hpiece] at hcw
            simp only [Piece.color, Option.some.injEq] at hcw
            subst hcw
            have hloc := (hkc' ⟨r, hrr⟩ ⟨c, hcc⟩).1 hpiece
            rw [hsw]
            simpa using hloc.symm
          · rw [hpiece] at hcb
            simp only [Piece.color, Option.some.injEq] at hcb
            subst hcb
            have hloc := (hkc' ⟨r, hrr⟩ ⟨c, hcc⟩).2 hpiece
            rw [hsw]
            simpa using hloc.symm
  · exact hacc

theorem pres_squareUnderAttack (s : GameState) (row col : Int) (hkc : KingsConsistent s) :
    Pres s (squareUnderAttack s row col).2 := by
  unfold squareUnderAttack
  dsimp only
  have hkc1 : KingsConsistent { s with white_to_move := !s.white_to_move } := fun r c => hkc r c
  have hg := pres_getAllPossibleMoves { s with white_to_move := !s.white_to_move } hkc1
  refine ⟨hg.board, ?_, hg.log, hg.wk, hg.bk, hg.cm, hg.sm, hg.ept, hg.eplog, hg.cr, hg.crlog⟩
  rw [hg.side]
  simp

theorem pres_inCheck (s : GameState) (hkc : KingsConsistent s) :
    Pres s (inCheck s).2 := by
  unfold inCheck
  split_ifs with h
  · exact pres_squareUnderAttack s _ _ hkc
  · exact pres_squareUnderAttack s _ _ hkc

theorem pres_getKingsideCastleMoves (s : GameState) (row col : Int) (moves : List Move)
    (hkc : KingsConsistent s) :
    Pres s (getKingsideCastleMoves s row col moves).2 := by
  unfold getKingsideCastleMoves
  dsimp only
  have p1 := pres_squareUnderAttack s row (col + 1) hkc
  have kc1 := kingsConsistent_of_pres hkc p1
  have p2 := pres_squareUnderAttack (squareUnderAttack s row (col + 1)).2 row (col + 2) kc1
  split_ifs with he h1 h2
  · exact p1
  · exact Pres.trans p1 p2
  · exact Pres.trans p1 p2
  · exact pres_refl s

theorem pres_getQueensideCastleMoves (s : GameState) (row col : Int) (moves : List Move)
    (hkc : KingsConsistent s) :
    Pres s (getQueensideCastleMoves s row col moves).2 := by
  unfold getQueensideCastleMoves
  dsimp only
  have p1 := pres_squareUnderAttack s row (col - 1) hkc
  have kc1 := kingsConsistent_of_pres hkc p1
  have p2 := pres_squareUnderAttack (squareUnderAttack s row (col - 1)).2 row (col - 2) kc1
  split_ifs with he h1 h2
  · exact p1
  · exact Pres.trans p1 p2
  · exact Pres.trans p1 p2
  · exact pres_refl s

theorem pres_getCastleMoves (s : GameState) (row col : Int) (moves : List Move)
    (hkc : KingsConsistent s) :
    Pres s (getCastleMoves s row col moves).2 := by
  unfold getCastleMoves
  dsimp only
  have p0 := pres_squareUnderAttack s row col hkc
  have kc0 := kingsConsistent_of_pres hkc p0
  split_ifs with h0 hks hqs hqs
  · exact p0
  · have p1 := pres_getKingsideCastleMoves (squareUnderAttack s row col).2 row col moves kc0
    have kc1 := kingsConsistent_of_pres kc0 p1
    exact Pres.trans (Pres.trans p0 p1)
      (pres_getQueensideCastleMoves _ row col _ kc1)
  · exact Pres.trans p0
      (pres_getKingsideCastleMoves (squareUnderAttack s row col).2 row col moves kc0)
  · exact Pres.trans p0
      (pres_getQueensideCastleMoves (squareUnderAttack s row col).2 row col moves kc0)
  · exact p0

theorem pres_gvmPreFlags (s : GameState) (hkc : KingsConsistent s) :
    Pres s (gvmPreFlags s).2 := by
  unfold gvmPreFlags
  dsimp only
  have p0 := pres_gsCheckForPinsAndChecks s
  have kc0 := kingsConsistent_of_pres hkc p0
  have pA := pres_getAllPossibleMoves _ kc0
  have kc1 := kingsConsistent_of_pres kc0 pA
  cases hsw : (gsCheckForPinsAndChecks s).2.white_to_move with
  | true =>
    simp only [hsw, eq_self_iff_true, if_true, ite_true]
    split_ifs with hic hlen hkn
    · exact Pres.trans p0 pA
    · exact Pres.trans p0 pA
    · apply Pres.trans p0
      apply pres_getKingMoves _ _ _ _
      simp [hsw]
    · exact Pres.trans (Pres.trans p0 pA) (pres_getCastleMoves _ _ _ _ kc1)
    · exact Pres.trans (Pres.trans p0 pA) (pres_getCastleMoves _ _ _ _ kc1)
  | false =>
    simp only [hsw, Bool.false_eq_true, if_false, ite_false]
    split_ifs with hic hlen hkn
    · exact Pres.trans p0 pA
    · exact Pres.trans p0 pA
    · apply Pres.trans p0
      apply pres_getKingMoves _ _ _ _
      simp [hsw]
    · exact Pres.trans (Pres.trans p0 pA) (pres_getCastleMoves _ _ _ _ kc1)
    · exact Pres.trans (Pres.trans p0 pA) (pres_getCastleMoves _ _ _ _ kc1)

/-- C10: a call to the legal move filter leaves all persisted position
state unchanged - board, side to move, move history, both king
locations, the en-passant target and its log, and the castling-rights
record (restored from the snapshot taken at entry) - for every
position whose king-location fields are consistent with the board (the
invariant every reachable position satisfies); only the transient
`in_check`/`pins`/`checks` fields and the terminal flags may change. -/
theorem c10_getValidMoves_frame (s : GameState) (hkc : KingsConsistent s) :
    (getValidMoves s).2.board = s.board ∧
    (getValidMoves s).2.white_to_move = s.white_to_move ∧
    (getValidMoves s).2.move_log = s.move_log ∧
    (getValidMoves s).2.white_king_location = s.white_king_location ∧
    (getValidMoves s).2.black_king_location = s.black_king_location ∧
    (getValidMoves s).2.enpassant_possible = s.enpassant_possible ∧
    (getValidMoves s).2.enpassant_possible_log = s.enpassant_possible_log ∧
    (getValidMoves s).2.current_castling_rights = s.current_castling_rights := by
  have hp := pres_gvmPreFlags s hkc
  have kc2 := kingsConsistent_of_pres hkc hp
  have pic := pres_inCheck (gvmPreFlags s).2 kc2
  unfold getValidMoves
  dsimp only
  split_ifs with hemp hchk
  · exact ⟨pic.board.trans hp.board, pic.side.trans hp.side, pic.log.trans hp.log,
      pic.wk.trans hp.wk, pic.bk.trans hp.bk, pic.ept.trans hp.ept,
      pic.eplog.trans hp.eplog, rfl⟩
  · exact ⟨pic.board.trans hp.board, pic.side.trans hp.side, pic.log.trans hp.log,
      pic.wk.trans hp.wk, pic.bk.trans hp.bk, pic.ept.trans hp.ept,
      pic.eplog.trans hp.eplog, rfl⟩
  · exact ⟨hp.board, hp.side, hp.log, hp.wk, hp.bk, hp.ept, hp.eplog, rfl⟩

/-- Witness for `c10_getValidMoves_frame` at a concrete consistent
position. -/
theorem c10_getValidMoves_frame_witness :
    (getValidMoves kingsOnlyState).2.white_to_move = kingsOnlyState.white_to_move ∧
    (getValidMoves kingsOnlyState).2.current_castling_rights =
      kingsOnlyState.current_castling_rights :=
  ⟨(c10_getValidMoves_frame kingsOnlyState (by decide)).2.1,
   (c10_getValidMoves_frame kingsOnlyState (by decide)).2.2.2.2.2.2.2⟩

/-- C9: after the legal move filter runs on a position whose incoming
terminal flags are clear (as they are whenever the filter is reached
through the normal play/search flow) and whose king-location fields
are consistent with the board: an empty result sets `checkmate` true
exactly when the engine's own attack oracle (`inCheck`, run on the
state the filter holds at that point, which agrees with the input
position on board, side to move, king locations and en-passant
target by `pres_gvmPreFlags`) reports the side-to-move's king
attacked, and sets `stalemate` true exactly otherwise; a non-empty
result leaves both flags false. -/
theorem c9_terminal_flags (s : GameState) (hkc : KingsConsistent s)
    (hcm : s.checkmate = false) (hsm : s.stalemate = false) :
    ((getValidMoves s).2.checkmate = true ↔
      ((getValidMoves s).1 = [] ∧ (inCheck (gvmPreFlags s).2).1 = true)) ∧
    ((getValidMoves s).2.stalemate = true ↔
      ((getValidMoves s).1 = [] ∧ (inCheck (gvmPreFlags s).2).1 = false)) := by
  have hp := pres_gvmPreFlags s hkc
  have kc2 := kingsConsistent_of_pres hkc hp
  have pic := pres_inCheck (gvmPreFlags s).2 kc2
  have hcm2 : (inCheck (gvmPreFlags s).2).2.checkmate = false :=
    (pic.cm.trans hp.cm).trans hcm
  have hsm2 : (inCheck (gvmPreFlags s).2).2.stalemate = false :=
    (pic.sm.trans hp.sm).trans hsm
  unfold getValidMoves
  dsimp only
  split_ifs with hemp hchk
  · have hnil : (gvmPreFlags s).1 = [] := List.isEmpty_iff.1 hemp
    constructor
    · simp [hnil, hchk]
    · simp [hsm2, hchk]
  · have hnil : (gvmPreFlags s).1 = [] := List.isEmpty_iff.1 hemp
    have hv : (inCheck (gvmPreFlags s).2).1 = false := by simpa using hchk
    constructor
    · simp [hcm2, hv]
    · simp [hnil, hv]
  · have hnil : (gvmPreFlags s).1 ≠ [] := by
      intro h
      rw [h] at hemp
      simp at hemp
    constructor
    · simp [hnil]
    · simp [hnil]

/-- Witness for `c9_terminal_flags` at a concrete position with clear
flags. -/
theorem c9_terminal_flags_witness :
    kingsOnlyState.checkmate = false ∧ kingsOnlyState.stalemate = false ∧
    ((getValidMoves kingsOnlyState).2.checkmate = true ↔
      ((getValidMoves kingsOnlyState).1 = [] ∧
        (inCheck (gvmPreFlags kingsOnlyState).2).1 = true)) :=
  ⟨rfl, rfl, (c9_terminal_flags kingsOnlyState (by decide) rfl rfl).1⟩
